import Mathlib

/- Shallow embedding of the quarter-partitioned news collection pipeline of
   this repository (collect_news.py and generate_tasks.py): calendar dates,
   the quarterly range generator, the paginated fetch loop, the date-range
   and exact-phrase filters, the retried search call, and the merge plus
   deduplication stage. -/

/-- Calendar date, as the date part of a Python datetime value:
    year, month (1..12), day (1..days in month). -/
@[ext]
structure Date where
  year : Nat
  month : Nat
  day : Nat
deriving DecidableEq

/-- Chronological comparison of dates, as Python datetime comparison
    restricted to midnight values: lexicographic on (year, month, day). -/
def Date.lt (a b : Date) : Prop :=
  a.year < b.year ∨ (a.year = b.year ∧
    (a.month < b.month ∨ (a.month = b.month ∧ a.day < b.day)))

/-- Chronological non-strict comparison of dates. -/
def Date.le (a b : Date) : Prop :=
  a.year < b.year ∨ (a.year = b.year ∧
    (a.month < b.month ∨ (a.month = b.month ∧ a.day ≤ b.day)))

theorem Date.le_refl_lex (a : Date) : Date.le a a := by
  unfold Date.le; omega

theorem Date.le_trans_lex (a b c : Date) (h1 : Date.le a b) (h2 : Date.le b c) :
    Date.le a c := by
  unfold Date.le at *; omega

theorem Date.lt_iff_lex (a b : Date) :
    Date.lt a b ↔ Date.le a b ∧ ¬ Date.le b a := by
  unfold Date.lt Date.le; omega

theorem Date.le_antisymm_lex (a b : Date) (h1 : Date.le a b) (h2 : Date.le b a) :
    a = b := by
  unfold Date.le at h1 h2; ext <;> omega

theorem Date.le_total_lex (a b : Date) : Date.le a b ∨ Date.le b a := by
  unfold Date.le; omega

instance Date.decLe (a b : Date) : Decidable (Date.le a b) := by
  unfold Date.le; infer_instance

instance Date.decLt (a b : Date) : Decidable (Date.lt a b) := by
  unfold Date.lt; infer_instance

instance : LinearOrder Date where
  le := Date.le
  lt := Date.lt
  le_refl := Date.le_refl_lex
  le_trans := Date.le_trans_lex
  lt_iff_le_not_le := Date.lt_iff_lex
  le_antisymm := Date.le_antisymm_lex
  le_total := Date.le_total_lex
  decidableLE := Date.decLe
  decidableLT := Date.decLt
  decidableEq := inferInstance

theorem Date.lt_def (a b : Date) : a < b ↔
    (a.year < b.year ∨ (a.year = b.year ∧
      (a.month < b.month ∨ (a.month = b.month ∧ a.day < b.day)))) := Iff.rfl

theorem Date.le_def (a b : Date) : a ≤ b ↔
    (a.year < b.year ∨ (a.year = b.year ∧
      (a.month < b.month ∨ (a.month = b.month ∧ a.day ≤ b.day)))) := Iff.rfl

/-- Leap year rule of the proleptic Gregorian calendar, as the Python
    datetime module uses it. -/
def isLeapYear (y : Nat) : Bool :=
  y % 4 = 0 && (y % 100 != 0 || y % 400 = 0)

/-- Number of days in month m of year y, as in the datetime module. -/
def daysInMonth (y m : Nat) : Nat :=
  if m = 2 then (if isLeapYear y then 29 else 28)
  else if m = 4 ∨ m = 6 ∨ m = 9 ∨ m = 11 then 30
  else 31

/-- The calendar day before the first of month m of year y; this embeds the
    expression datetime(year, m, 1) - timedelta(days=1) of the source. -/
def firstOfMonthMinusOneDay (y m : Nat) : Date :=
  if m = 1 then ⟨y - 1, 12, 31⟩ else ⟨y, m - 1, daysInMonth y (m - 1)⟩

/-- The calendar day after d; this embeds d + timedelta(days=1). -/
def addOneDay (d : Date) : Date :=
  if d.day < daysInMonth d.year d.month then ⟨d.year, d.month, d.day + 1⟩
  else if d.month < 12 then ⟨d.year, d.month + 1, 1⟩
  else ⟨d.year + 1, 1, 1⟩

/-- Decimal rendering of n, left padded with zeros to width w. -/
def padTo (w n : Nat) : String :=
  let s := toString n
  (List.replicate (w - s.length) '0').asString ++ s

/-- Rendering of a date as strftime with format %Y-%m-%d does. -/
def strftimeYmd (d : Date) : String :=
  padTo 4 d.year ++ "-" ++ padTo 2 d.month ++ "-" ++ padTo 2 d.day

/-- Quarter range produced by the partitioner: label like 2022_Q1 together
    with the first and last calendar day covered. The source carries the two
    dates as %Y-%m-%d strings; strftimeYmd maps this record to that form. -/
structure QuarterRange where
  label : String
  start_date : Date
  end_date : Date
deriving DecidableEq

/-- The quarter table of generate_quarterly_ranges: name, first month and
    last month of each of the four quarters. -/
def quarter_months : List (String × Nat × Nat) :=
  [("Q1", 1, 3), ("Q2", 4, 6), ("Q3", 7, 9), ("Q4", 10, 12)]

/-- Inner loop of generate_quarterly_ranges over the quarter table for one
    year: build each quarter range, stop (break) once a nominal start date
    lies after now, clip an end date lying after now back to now. The time
    of day of "now" is irrelevant to every comparison the source makes, so
    now is modelled as the current calendar date. -/
def quarterLoop (now : Date) (year : Nat) :
    List (String × Nat × Nat) → List QuarterRange
  | [] => []
  | (q_name, start_month, end_month) :: rest =>
    let start_date : Date := ⟨year, start_month, 1⟩
    let end_date : Date :=
      if end_month = 12 then ⟨year, 12, 31⟩
      else firstOfMonthMinusOneDay year (end_month + 1)
    if now < start_date then []
    else
      let end_clipped := if now < end_date then now else end_date
      ⟨toString year ++ "_" ++ q_name, start_date, end_clipped⟩ ::
        quarterLoop now year rest

/-- generate_quarterly_ranges of collect_news.py, at the level of dates:
    iterate the years from start_year to end_year (defaulted to the current
    year when the argument is omitted, modelled by none) and run the quarter
    loop for each year. -/
def generate_quarterly_ranges (now : Date) (start_year : Nat)
    (end_year : Option Nat) : List QuarterRange :=
  let ey := match end_year with
    | some e => e
    | none => now.year
  (List.range' start_year (ey + 1 - start_year)).flatMap
    (fun year => quarterLoop now year quarter_months)

/-- The list of (label, start string, end string) triples that the source
    function actually returns. -/
def generate_quarterly_ranges_str (now : Date) (start_year : Nat)
    (end_year : Option Nat) : List (String × String × String) :=
  (generate_quarterly_ranges now start_year end_year).map
    (fun r => (r.label, strftimeYmd r.start_date, strftimeYmd r.end_date))

/-- Inner loop of the independent generate_quarterly_ranges implementation
    in generate_tasks.py, which appends the formatted triples directly. -/
def quarterLoopTasks (now : Date) (year : Nat) :
    List (String × Nat × Nat) → List (String × String × String)
  | [] => []
  | (q_name, start_month, end_month) :: rest =>
    let start_date : Date := ⟨year, start_month, 1⟩
    let end_date : Date :=
      if end_month = 12 then ⟨year, 12, 31⟩
      else firstOfMonthMinusOneDay year (end_month + 1)
    if now < start_date then []
    else
      let end_clipped := if now < end_date then now else end_date
      (toString year ++ "_" ++ q_name, strftimeYmd start_date,
        strftimeYmd end_clipped) :: quarterLoopTasks now year rest

/-- generate_quarterly_ranges of generate_tasks.py: same year iteration with
    the end year always the current year. -/
def generate_quarterly_ranges_tasks (now : Date) (start_year : Nat) :
    List (String × String × String) :=
  (List.range' start_year (now.year + 1 - start_year)).flatMap
    (fun year => quarterLoopTasks now year quarter_months)

/-- Raw response of one search call: the reported total number of matching
    items and the page of raw items. Item identity is irrelevant to the
    claims about pagination, so raw items are modelled as opaque numbers. -/
structure SearchResult where
  total : Nat
  items : List Nat
deriving DecidableEq

/-- Ceiling division, embedding math.ceil(a / b) for positive b. -/
def ceilDiv (a b : Nat) : Nat := (a + b - 1) / b

/-- The page loop of fetch_news_in_quarter, instrumented with a request
    counter: for each remaining page number, request the page at offset
    (page - 1) * display + 1, stop (break) on an empty batch, extend the
    accumulated items, and on reaching max_items truncate to exactly
    max_items and stop. Returns the number of requests issued so far and
    the accumulated raw items. -/
def fetchPagesLoop (api : Nat → SearchResult) (display max_items : Nat) :
    List Nat → List Nat → Nat → Nat × List Nat
  | [], items, reqs => (reqs, items)
  | page :: rest, items, reqs =>
    let start := (page - 1) * display + 1
    let batch := (api start).items
    if batch = [] then (reqs + 1, items)
    else
      let items2 := items ++ batch
      if max_items ≤ items2.length then (reqs + 1, items2.take max_items)
      else fetchPagesLoop api display max_items rest items2 (reqs + 1)

/-- Pagination part of fetch_news_in_quarter: issue the first page at offset
    1, read the reported total, cap it by max_items, and when something is
    to be fetched run the page loop over pages 2..pages where pages is the
    ceiling of the capped total divided by the page size. The function of
    page offsets api abstracts the keyword-specific search call; the result
    is the pair of the number of requests issued and the raw item list that
    the source would hand to normalization. -/
def fetch_news_in_quarter (api : Nat → SearchResult)
    (display max_items : Nat) : Nat × List Nat :=
  let first := api 1
  let total_available := first.total
  let total_to_fetch := min total_available max_items
  let items := first.items
  if total_to_fetch = 0 then (1, [])
  else
    let pages := ceilDiv total_to_fetch display
    fetchPagesLoop api display max_items (List.range' 2 (pages - 1)) items 1

/-- Timestamp with date part and seconds elapsed within the day, enough to
    embed every comparison the date-range filter performs. Zone offsets are
    not modelled: timestamps are compared as the single-zone feed values
    the source handles. -/
structure Timestamp where
  date : Date
  sec : Nat
deriving DecidableEq

/-- Chronological order on timestamps. -/
def Timestamp.le (a b : Timestamp) : Prop :=
  a.date < b.date ∨ (a.date = b.date ∧ a.sec ≤ b.sec)

/-- Strict chronological order on timestamps. -/
def Timestamp.lt (a b : Timestamp) : Prop :=
  a.date < b.date ∨ (a.date = b.date ∧ a.sec < b.sec)

instance Timestamp.decLe (a b : Timestamp) : Decidable (Timestamp.le a b) := by
  unfold Timestamp.le; infer_instance

instance Timestamp.decLt (a b : Timestamp) : Decidable (Timestamp.lt a b) := by
  unfold Timestamp.lt; infer_instance

/-- Midnight at the start of day d, as pd.to_datetime applied to the
    %Y-%m-%d rendering of d. -/
def Date.midnight (d : Date) : Timestamp := ⟨d, 0⟩

/-- One normalized news record as the rows of the part files carry it. -/
structure NewsRec where
  title : String
  url : String
  source_url : String
  description : String
  date : String
  quarter : String
  keyword : String
deriving DecidableEq

/-- filter_by_date_range: keep the records whose date string parses (the
    parse function embeds pd.to_datetime with the fixed format and
    errors coerce) to a timestamp at or after midnight of start_date and
    strictly before midnight of the day after end_date. A record whose date
    fails to parse compares as NaT, every comparison on it is false, and the
    record is dropped. -/
def filter_by_date_range (parse : String → Option Timestamp)
    (records : List NewsRec) (start_date end_date : Date) : List NewsRec :=
  records.filter (fun r =>
    match parse r.date with
    | none => false
    | some t =>
      decide (Timestamp.le start_date.midnight t) &&
        decide (Timestamp.lt t (addOneDay end_date).midnight))

/-- Literal, case sensitive substring containment, embedding
    str.contains with regex=False: the character sequence of needle occurs
    contiguously in the character sequence of hay. -/
def strContainsLit (hay needle : String) : Prop :=
  needle.toList <:+: hay.toList

instance strContainsLit.dec (hay needle : String) :
    Decidable (strContainsLit hay needle) := by
  unfold strContainsLit; infer_instance

/-- filter_exact_phrase: on an empty frame return it unchanged; when the
    exact_phrase_match configuration toggle is off return the input
    unchanged; otherwise keep the records whose title or description
    contains the phrase as a literal substring. -/
def filter_exact_phrase (exact_phrase_match : Bool)
    (records : List NewsRec) (phrase : String) : List NewsRec :=
  match records with
  | [] => records
  | _ :: _ =>
    if exact_phrase_match = false then records
    else records.filter (fun r =>
      decide (strContainsLit r.title phrase) ||
        decide (strContainsLit r.description phrase))

/-- Retry loop of naver_search from attempt index i with rem attempts still
    allowed: a successful attempt returns its parsed response; a failed
    attempt is retried while attempts remain, and the last failure returns
    the empty result with total 0 and no items. The results function gives
    the outcome of each attempt index; none is only reached when the
    configured retry count is zero, in which case the loop body never runs
    and the source function falls off the end. -/
def retryFrom (results : Nat → Except String SearchResult) :
    Nat → Nat → Option SearchResult
  | _, 0 => none
  | i, rem + 1 =>
    match results i with
    | Except.ok r => some r
    | Except.error _ =>
      match rem with
      | 0 => some ⟨0, []⟩
      | _ + 1 => retryFrom results (i + 1) rem

/-- naver_search: run the attempts from index 0 with retry_count attempts
    allowed. -/
def naver_search (results : Nat → Except String SearchResult)
    (retry_count : Nat) : Option SearchResult :=
  retryFrom results 0 retry_count

/-- Outcome of merge_all_parts: no csv files found in the input directory,
    no file loaded successfully, or a merged dataset together with the
    reported number of duplicate rows removed. Only the merged outcome
    writes an output file. -/
inductive MergeOutcome where
  | noFiles : MergeOutcome
  | noLoadable : MergeOutcome
  | merged : List NewsRec → Nat → MergeOutcome
deriving DecidableEq

/-- Deduplication as drop_duplicates on one key column with the default
    keep first: walk the rows in order and keep a row exactly when its key
    was not seen before. -/
def dedupByKey (key : NewsRec → String) (seen : List String) :
    List NewsRec → List NewsRec
  | [] => []
  | r :: rest =>
    if key r ∈ seen then dedupByKey key seen rest
    else r :: dedupByKey key (key r :: seen) rest

/-- merge_all_parts: the directory listing and the per file loads are
    abstracted into one list with none for a file that fails to load and
    some rows for a loaded file. With no csv files the source logs an error
    and returns; with no loadable file likewise; otherwise it concatenates
    the loaded frames in order, optionally drops duplicate rows on the
    configured key column keeping the first occurrence, reports how many
    rows that removed, and writes the result. -/
def merge_all_parts (remove_duplicates : Bool) (key : NewsRec → String)
    (files : List (Option (List NewsRec))) : MergeOutcome :=
  match files with
  | [] => MergeOutcome.noFiles
  | _ :: _ =>
    let all_dfs := files.filterMap id
    match all_dfs with
    | [] => MergeOutcome.noLoadable
    | _ :: _ =>
      let df_merged := all_dfs.flatten
      if remove_duplicates then
        let deduped := dedupByKey key [] df_merged
        MergeOutcome.merged deduped (df_merged.length - deduped.length)
      else MergeOutcome.merged df_merged 0

/-- Result of one whole process invocation. -/
inductive ProcessResult where
  | normalExit : Nat → ProcessResult
  | raised : String → ProcessResult
deriving DecidableEq

/-- The merge mode of main: call merge_all_parts and return; no code path
    of merge_all_parts raises or calls sys.exit, so the invocation always
    finishes with exit code 0. -/
def run_merge_mode (remove_duplicates : Bool) (key : NewsRec → String)
    (files : List (Option (List NewsRec))) : ProcessResult :=
  match merge_all_parts remove_duplicates key files with
  | _ => ProcessResult.normalExit 0

/-- Deduplication as the spec words it, written independently of the code:
    keep the first occurrence of each key value, that is keep the head and
    recurse on the tail purged of rows sharing the head key. -/
def specDedup (key : NewsRec → String) : List NewsRec → List NewsRec
  | [] => []
  | r :: rest =>
    r :: specDedup key (rest.filter (fun x => decide (key x ≠ key r)))
termination_by l => l.length
decreasing_by
  exact Nat.lt_succ_of_le (List.length_filter_le _ _)

/-- Nominal end of the quarter whose nominal start is s: the last day of
    the third month of that quarter, ignoring any clipping to the current
    date. Used to state the clipping property. -/
def nominalEndFor (s : Date) : Date :=
  if s.month = 1 then ⟨s.year, 3, 31⟩
  else if s.month = 4 then ⟨s.year, 6, 30⟩
  else if s.month = 7 then ⟨s.year, 9, 30⟩
  else ⟨s.year, 12, 31⟩

/-- Nominal start date of a quarter table entry for year y: the first day
    of the entry's first month. -/
def entryStart (y : Nat) (q : String × Nat × Nat) : Date := ⟨y, q.2.1, 1⟩

/-- Nominal end date of a quarter table entry for year y, exactly as the
    source computes it. -/
def entryEnd (y : Nat) (q : String × Nat × Nat) : Date :=
  if q.2.2 = 12 then ⟨y, 12, 31⟩ else firstOfMonthMinusOneDay y (q.2.2 + 1)

/-- All per-range facts the spec asserts about one emitted quarter range of
    year y: bounded by the year, start not after end, both not after now,
    and clipped exactly to now when now does not lie after the nominal
    quarter end. -/
def qrFacts (now : Date) (y : Nat) (r : QuarterRange) : Prop :=
  (⟨y, 1, 1⟩ : Date) ≤ r.start_date ∧ r.start_date ≤ r.end_date ∧
  r.end_date ≤ ⟨y, 12, 31⟩ ∧ r.start_date ≤ now ∧ r.end_date ≤ now ∧
  (now ≤ nominalEndFor r.start_date → r.end_date = now)

theorem quarterLoop_head (now : Date) (y : Nat) :
    ∀ (qs : List (String × Nat × Nat)) (b : QuarterRange),
    b ∈ (quarterLoop now y qs).head? →
    ∃ q, qs.head? = some q ∧ b.start_date = entryStart y q ∧
      ¬ now < b.start_date := by
  intro qs b hb
  match qs with
  | [] => simp [quarterLoop] at hb
  | (nm, sm, em) :: rest =>
    have hunf : quarterLoop now y ((nm, sm, em) :: rest) =
        (if now < entryStart y (nm, sm, em) then [] else
          ⟨toString y ++ "_" ++ nm, entryStart y (nm, sm, em),
            if now < entryEnd y (nm, sm, em) then now
            else entryEnd y (nm, sm, em)⟩ :: quarterLoop now y rest) := rfl
    rw [hunf] at hb
    by_cases hlt : now < entryStart y (nm, sm, em)
    · rw [if_pos hlt] at hb
      simp at hb
    · rw [if_neg hlt] at hb
      simp only [List.head?_cons, Option.mem_def, Option.some.injEq] at hb
      subst hb
      exact ⟨(nm, sm, em), rfl, rfl, hlt⟩

theorem quarterLoop_sound (now : Date) (y : Nat) :
    ∀ qs : List (String × Nat × Nat),
    (∀ q ∈ qs, entryStart y q ≤ entryEnd y q ∧ entryEnd y q ≤ ⟨y, 12, 31⟩ ∧
      (⟨y, 1, 1⟩ : Date) ≤ entryStart y q ∧
      nominalEndFor (entryStart y q) = entryEnd y q) →
    List.Chain' (fun a b => entryEnd y a < entryStart y b) qs →
    (∀ r ∈ quarterLoop now y qs, qrFacts now y r) ∧
    List.Chain' (fun a b => a.end_date < b.start_date)
      (quarterLoop now y qs) := by
  intro qs
  induction qs with
  | nil =>
    intro _ _
    simp [quarterLoop]
  | cons q rest ih =>
    intro h1 h2
    obtain ⟨nm, sm, em⟩ := q
    have hq := h1 (nm, sm, em) (List.mem_cons_self _ _)
    have h1r : ∀ q ∈ rest, entryStart y q ≤ entryEnd y q ∧
        entryEnd y q ≤ ⟨y, 12, 31⟩ ∧ (⟨y, 1, 1⟩ : Date) ≤ entryStart y q ∧
        nominalEndFor (entryStart y q) = entryEnd y q :=
      fun q hq2 => h1 q (List.mem_cons_of_mem _ hq2)
    have h2' := List.chain'_cons'.mp h2
    have ihr := ih h1r h2'.2
    have hunf : quarterLoop now y ((nm, sm, em) :: rest) =
        (if now < entryStart y (nm, sm, em) then [] else
          ⟨toString y ++ "_" ++ nm, entryStart y (nm, sm, em),
            if now < entryEnd y (nm, sm, em) then now
            else entryEnd y (nm, sm, em)⟩ :: quarterLoop now y rest) := rfl
    rw [hunf]
    by_cases hlt : now < entryStart y (nm, sm, em)
    · rw [if_pos hlt]
      simp
    · rw [if_neg hlt]
      have hsn : entryStart y (nm, sm, em) ≤ now := not_lt.mp hlt
      constructor
      · intro r hr
        rcases List.mem_cons.mp hr with hr0 | hrt
        · subst hr0
          dsimp only [qrFacts]
          by_cases hclip : now < entryEnd y (nm, sm, em)
          · rw [if_pos hclip]
            refine ⟨hq.2.2.1, hsn, le_trans (le_of_lt hclip) hq.2.1, hsn,
              le_refl now, fun _ => rfl⟩
          · rw [if_neg hclip]
            have hen : entryEnd y (nm, sm, em) ≤ now := not_lt.mp hclip
            refine ⟨hq.2.2.1, hq.1, hq.2.1, hsn, hen, fun hno => ?_⟩
            rw [hq.2.2.2] at hno
            exact le_antisymm hen hno
        · exact ihr.1 r hrt
      · rw [List.chain'_cons']
        refine ⟨?_, ihr.2⟩
        intro b hb
        obtain ⟨q2, hq2head, hbstart, hble⟩ := quarterLoop_head now y rest b hb
        have hcross : entryEnd y (nm, sm, em) < entryStart y q2 :=
          h2'.1 q2 hq2head
        dsimp only
        rw [hbstart]
        by_cases hclip : now < entryEnd y (nm, sm, em)
        · rw [if_pos hclip]
          exact lt_trans hclip hcross
        · rw [if_neg hclip]
          exact hcross

theorem quarterLoop_facts (now : Date) (y : Nat) :
    (∀ r ∈ quarterLoop now y quarter_months, qrFacts now y r) ∧
    List.Chain' (fun a b => a.end_date < b.start_date)
      (quarterLoop now y quarter_months) := by
  apply quarterLoop_sound
  · intro q hq
    simp only [quarter_months, List.mem_cons, List.not_mem_nil, or_false] at hq
    rcases hq with rfl | rfl | rfl | rfl <;>
      refine ⟨?_, ?_, ?_, ?_⟩ <;>
      simp [entryStart, entryEnd, firstOfMonthMinusOneDay, daysInMonth,
        nominalEndFor, Date.le_def, Date.ext_iff, isLeapYear]
  · simp only [quarter_months, List.chain'_cons, List.chain'_singleton,
      and_true]
    refine ⟨?_, ?_, ?_⟩ <;>
      simp [entryStart, entryEnd, firstOfMonthMinusOneDay, daysInMonth,
        Date.lt_def]

theorem generate_chain (now : Date) :
    ∀ (n sy : Nat),
    List.Chain' (fun a b => a.end_date < b.start_date)
      ((List.range' sy n).flatMap
        (fun y => quarterLoop now y quarter_months)) := by
  intro n
  induction n with
  | zero => intro sy; simp
  | succ n ih =>
    intro sy
    rw [List.range'_succ sy n 1]
    rw [List.flatMap_cons]
    apply List.Chain'.append (quarterLoop_facts now sy).2 (ih (sy + 1))
    intro x hx b hb
    have hxm : x ∈ quarterLoop now sy quarter_months :=
      List.mem_of_mem_getLast? hx
    have hxe : x.end_date ≤ ⟨sy, 12, 31⟩ :=
      ((quarterLoop_facts now sy).1 x hxm).2.2.1
    have hbm : b ∈ (List.range' (sy + 1) n).flatMap
        (fun y => quarterLoop now y quarter_months) :=
      List.mem_of_mem_head? hb
    rw [List.mem_flatMap] at hbm
    obtain ⟨y2, hy2, hbq⟩ := hbm
    rw [List.mem_range'_1] at hy2
    have hbs : (⟨y2, 1, 1⟩ : Date) ≤ b.start_date :=
      ((quarterLoop_facts now y2).1 b hbq).1
    have hlt : (⟨sy, 12, 31⟩ : Date) < ⟨y2, 1, 1⟩ := by
      rw [Date.lt_def]
      dsimp only
      omega
    exact lt_of_lt_of_le (lt_of_le_of_lt hxe hlt) hbs

theorem generate_mem_facts (now : Date) (start_year : Nat)
    (end_year : Option Nat) :
    ∀ r ∈ generate_quarterly_ranges now start_year end_year,
      ∃ y, qrFacts now y r := by
  intro r hr
  simp only [generate_quarterly_ranges, List.mem_flatMap] at hr
  obtain ⟨y, _, hq⟩ := hr
  exact ⟨y, (quarterLoop_facts now y).1 r hq⟩

/-- Claim C1: for every start_year at most the current year, every quarter
    range returned by generate_quarterly_ranges has start_date at most
    end_date, and consecutive ranges are strictly increasing and
    non-overlapping: each range starts strictly after the previous range
    ends. -/
theorem quarterly_ranges_ordered (now : Date) (start_year : Nat)
    (h : start_year ≤ now.year) :
    (∀ r ∈ generate_quarterly_ranges now start_year none,
      r.start_date ≤ r.end_date) ∧
    List.Chain' (fun a b => a.end_date < b.start_date)
      (generate_quarterly_ranges now start_year none) := by
  constructor
  · intro r hr
    obtain ⟨y, hf⟩ := generate_mem_facts now start_year none r hr
    exact hf.2.1
  · exact generate_chain now _ start_year

/-- Witness for quarterly_ranges_ordered at start_year 2022 and the current
    date 2022-02-15. -/
theorem quarterly_ranges_ordered_witness :
    (∀ r ∈ generate_quarterly_ranges ⟨2022, 2, 15⟩ 2022 none,
      r.start_date ≤ r.end_date) ∧
    List.Chain' (fun a b => a.end_date < b.start_date)
      (generate_quarterly_ranges ⟨2022, 2, 15⟩ 2022 none) :=
  quarterly_ranges_ordered ⟨2022, 2, 15⟩ 2022 (by decide)

/-- Claim C2: no emitted range ends after the current date, no quarter
    whose nominal start lies after the current date is emitted, the final
    range is clipped exactly to the current date when that date falls
    inside the quarter, and concretely for now 2022-02-15 and start year
    2022 the output is exactly 2022_Q1 covering 2022-01-01 through
    2022-02-15, with no 2022_Q2. -/
theorem quarterly_ranges_clipped (now : Date) (start_year : Nat) :
    (∀ r ∈ generate_quarterly_ranges now start_year none,
      r.end_date ≤ now ∧ r.start_date ≤ now ∧
      (now ≤ nominalEndFor r.start_date → r.end_date = now)) ∧
    generate_quarterly_ranges ⟨2022, 2, 15⟩ 2022 none =
      [⟨"2022_Q1", ⟨2022, 1, 1⟩, ⟨2022, 2, 15⟩⟩] ∧
    (∀ r ∈ generate_quarterly_ranges ⟨2022, 2, 15⟩ 2022 none,
      r.label ≠ "2022_Q2") := by
  refine ⟨?_, by decide, by decide⟩
  intro r hr
  obtain ⟨y, hf⟩ := generate_mem_facts now start_year none r hr
  exact ⟨hf.2.2.2.2.1, hf.2.2.2.1, hf.2.2.2.2.2⟩

/-- Witness for quarterly_ranges_clipped at the current date 2022-02-15 and
    start year 2022, applied to the single emitted range. -/
theorem quarterly_ranges_clipped_witness :
    (⟨"2022_Q1", ⟨2022, 1, 1⟩, ⟨2022, 2, 15⟩⟩ : QuarterRange).end_date ≤
      ⟨2022, 2, 15⟩ ∧
    ((⟨2022, 2, 15⟩ : Date) ≤
        nominalEndFor (⟨2022, 1, 1⟩ : Date) →
      (⟨"2022_Q1", ⟨2022, 1, 1⟩, ⟨2022, 2, 15⟩⟩ : QuarterRange).end_date =
        ⟨2022, 2, 15⟩) := by
  have h := (quarterly_ranges_clipped ⟨2022, 2, 15⟩ 2022).1
    ⟨"2022_Q1", ⟨2022, 1, 1⟩, ⟨2022, 2, 15⟩⟩ (by decide)
  exact ⟨h.1, h.2.2⟩

theorem quarterLoopTasks_eq_map (now : Date) (y : Nat) :
    ∀ qs : List (String × Nat × Nat),
    quarterLoopTasks now y qs = (quarterLoop now y qs).map
      (fun r => (r.label, strftimeYmd r.start_date,
        strftimeYmd r.end_date)) := by
  intro qs
  induction qs with
  | nil => rfl
  | cons q rest ih =>
    obtain ⟨nm, sm, em⟩ := q
    simp only [quarterLoopTasks, quarterLoop]
    by_cases hlt : now < (⟨y, sm, 1⟩ : Date)
    · rw [if_pos hlt, if_pos hlt]
      rfl
    · rw [if_neg hlt, if_neg hlt]
      rw [List.map_cons, ih]

/-- Claim C10: the two independent implementations of the quarter range
    generator, the one of collect_news.py with its end year defaulted and
    the one of generate_tasks.py, return identical lists of label and date
    string triples for every start year and current date. -/
theorem quarterly_ranges_implementations_agree (now : Date)
    (start_year : Nat) :
    generate_quarterly_ranges_str now start_year none =
      generate_quarterly_ranges_tasks now start_year := by
  rw [generate_quarterly_ranges_str, generate_quarterly_ranges,
    generate_quarterly_ranges_tasks]
  rw [List.map_flatMap]
  simp only [quarterLoopTasks_eq_map]

/-- Claim C4: the date range filter keeps exactly the records whose
    published timestamp parses and lies at or after midnight of the start
    date and strictly before midnight of the day after the end date, so the
    end date is inclusive through end of day; the output is a sublist of
    the input, and a record whose date string fails to parse is excluded
    rather than failing the operation. -/
theorem date_filter_keeps_in_range (parse : String → Option Timestamp)
    (records : List NewsRec) (s e : Date) :
    (filter_by_date_range parse records s e).Sublist records ∧
    (∀ r, r ∈ filter_by_date_range parse records s e ↔
      (r ∈ records ∧ ∃ t, parse r.date = some t ∧
        Timestamp.le s.midnight t ∧
        Timestamp.lt t (addOneDay e).midnight)) ∧
    (∀ r ∈ records, parse r.date = none →
      r ∉ filter_by_date_range parse records s e) := by
  have hiff : ∀ r, r ∈ filter_by_date_range parse records s e ↔
      (r ∈ records ∧ ∃ t, parse r.date = some t ∧
        Timestamp.le s.midnight t ∧
        Timestamp.lt t (addOneDay e).midnight) := by
    intro r
    rw [filter_by_date_range, List.mem_filter]
    cases hp : parse r.date with
    | none => simp [hp]
    | some t => simp [hp]
  refine ⟨List.filter_sublist _, hiff, ?_⟩
  intro r _ hnone hmem
  obtain ⟨_, t, ht, _⟩ := (hiff r).mp hmem
  rw [hnone] at ht
  exact Option.noConfusion ht

/-- Witness for date_filter_keeps_in_range: under a parse function that
    fails on everything, a record is excluded from the filter result. -/
theorem date_filter_keeps_in_range_witness :
    (⟨"a", "b", "c", "d", "e", "f", "g"⟩ : NewsRec) ∉
      filter_by_date_range (fun _ => none)
        [⟨"a", "b", "c", "d", "e", "f", "g"⟩] ⟨2022, 1, 1⟩ ⟨2022, 3, 31⟩ :=
  (date_filter_keeps_in_range (fun _ => none)
      [⟨"a", "b", "c", "d", "e", "f", "g"⟩] ⟨2022, 1, 1⟩ ⟨2022, 3, 31⟩).2.2
    ⟨"a", "b", "c", "d", "e", "f", "g"⟩ (by simp) rfl

/-- Claim C5: with exact phrase matching disabled the phrase filter is the
    identity; with it enabled it keeps exactly the records whose title or
    description contains the phrase as a literal case sensitive substring;
    concretely the phrase 청도군 excludes a record titled 청도 군민 행사
    and keeps one titled 청도군 소식. -/
theorem exact_phrase_filter_spec :
    (∀ (records : List NewsRec) (phrase : String),
      filter_exact_phrase false records phrase = records) ∧
    (∀ (records : List NewsRec) (phrase : String),
      filter_exact_phrase true records phrase =
        records.filter (fun r => decide (strContainsLit r.title phrase) ||
          decide (strContainsLit r.description phrase))) ∧
    filter_exact_phrase true
      [⟨"청도 군민 행사", "u1", "s1", "d1", "dt", "q", "k"⟩,
       ⟨"청도군 소식", "u2", "s2", "d2", "dt", "q", "k"⟩] "청도군" =
      [⟨"청도군 소식", "u2", "s2", "d2", "dt", "q", "k"⟩] := by
  refine ⟨?_, ?_, by decide⟩
  · intro records phrase
    cases records <;> rfl
  · intro records phrase
    cases records <;> rfl

theorem retryFrom_all_fail (results : Nat → Except String SearchResult) :
    ∀ (rem i : Nat), 0 < rem →
    (∀ k, k < rem → ∃ e, results (i + k) = Except.error e) →
    retryFrom results i rem = some ⟨0, []⟩ := by
  intro rem
  induction rem with
  | zero => intro i h; omega
  | succ m ih =>
    intro i _ hall
    obtain ⟨e0, he0⟩ := hall 0 (Nat.succ_pos m)
    rw [Nat.add_zero] at he0
    match m, ih, hall with
    | 0, _, _ => simp only [retryFrom, he0]
    | m' + 1, ih, hall =>
      simp only [retryFrom, he0]
      exact ih (i + 1) (Nat.succ_pos m')
        (fun k hk => by
          have := hall (k + 1) (by omega)
          rwa [show i + (k + 1) = i + 1 + k by omega] at this)

theorem retryFrom_first_ok (results : Nat → Except String SearchResult) :
    ∀ (j i rem : Nat) (r : SearchResult), j < rem →
    (∀ k, k < j → ∃ e, results (i + k) = Except.error e) →
    results (i + j) = Except.ok r →
    retryFrom results i rem = some r := by
  intro j
  induction j with
  | zero =>
    intro i rem r hj _ hok
    rw [Nat.add_zero] at hok
    match rem, hj with
    | m + 1, _ =>
      match m with
      | 0 => simp only [retryFrom, hok]
      | _ + 1 => simp only [retryFrom, hok]
  | succ j' ih =>
    intro i rem r hj hfail hok
    obtain ⟨e0, he0⟩ := hfail 0 (Nat.succ_pos j')
    rw [Nat.add_zero] at he0
    match rem, hj with
    | m + 1, hj =>
      match m, hj with
      | m' + 1, hj =>
        simp only [retryFrom, he0]
        exact ih (i + 1) (m' + 1) r (by omega)
          (fun k hk => by
            have := hfail (k + 1) (by omega)
            rwa [show i + (k + 1) = i + 1 + k by omega] at this)
          (by rwa [show i + (j' + 1) = i + 1 + j' by omega] at hok)

/-- Claim C6: when every attempt up to the configured retry count fails
    with a transient error, naver_search returns the empty result with
    total 0 and no items instead of raising; when some attempt succeeds
    first, it returns that attempt's parsed response. -/
theorem search_retry_degrades :
    (∀ (results : Nat → Except String SearchResult) (n : Nat), 0 < n →
      (∀ i, i < n → ∃ e, results i = Except.error e) →
      naver_search results n = some ⟨0, []⟩) ∧
    (∀ (results : Nat → Except String SearchResult) (n j : Nat)
      (r : SearchResult), j < n →
      (∀ i, i < j → ∃ e, results i = Except.error e) →
      results j = Except.ok r →
      naver_search results n = some r) := by
  constructor
  · intro results n hn hall
    exact retryFrom_all_fail results n 0 hn
      (fun k hk => by simpa using hall k hk)
  · intro results n j r hj hfail hok
    exact retryFrom_first_ok results j 0 n r hj
      (fun k hk => by simpa using hfail k hk) (by simpa using hok)

/-- Witness for search_retry_degrades: three failing attempts degrade to
    the empty result, and a success on the second attempt is returned. -/
theorem search_retry_degrades_witness :
    naver_search (fun _ => Except.error "timeout") 3 = some ⟨0, []⟩ ∧
    naver_search
      (fun i => if i = 0 then Except.error "timeout"
        else Except.ok ⟨5, [1, 2]⟩) 3 = some ⟨5, [1, 2]⟩ := by
  constructor
  · exact search_retry_degrades.1 (fun _ => Except.error "timeout") 3
      (by decide) (fun i _ => ⟨"timeout", rfl⟩)
  · exact search_retry_degrades.2
      (fun i => if i = 0 then Except.error "timeout"
        else Except.ok ⟨5, [1, 2]⟩) 3 1 ⟨5, [1, 2]⟩ (by decide)
      (fun i hi => by interval_cases i <;> exact ⟨"timeout", rfl⟩) rfl

/-- Counterexample to claim C7 as stated: with zero part files present the
    merge invocation does not abort with a non-zero exit and raises
    nothing; merge_all_parts logs an error and returns (the noFiles
    outcome, which writes no output) and the process finishes normally
    with exit code 0. -/
theorem merge_empty_input_cex :
    merge_all_parts true (fun r => r.url) [] = MergeOutcome.noFiles ∧
    run_merge_mode true (fun r => r.url) [] = ProcessResult.normalExit 0 ∧
    run_merge_mode true (fun r => r.url) [] ≠
      ProcessResult.raised "EmptyInputError" := by
  refine ⟨rfl, rfl, ?_⟩
  intro h
  exact ProcessResult.noConfusion h

/-- Claim C7 amended: when zero part files are present or zero part files
    load successfully, merge_all_parts logs an error and returns without
    writing any merged output (the noFiles and noLoadable outcomes carry
    no dataset), and the invocation finishes normally with exit code 0
    rather than aborting with a non-zero exit; this is still distinct from
    the soft case of loaded files holding zero records, which produces a
    written, empty merged output. -/
theorem merge_empty_soft_failure (key : NewsRec → String)
    (files : List (Option (List NewsRec)))
    (h : files.filterMap id = []) :
    (merge_all_parts true key files = MergeOutcome.noFiles ∨
      merge_all_parts true key files = MergeOutcome.noLoadable) ∧
    run_merge_mode true key files = ProcessResult.normalExit 0 ∧
    merge_all_parts true key [some []] = MergeOutcome.merged [] 0 := by
  refine ⟨?_, ?_, rfl⟩
  · match files with
    | [] => exact Or.inl rfl
    | f :: rest =>
      right
      rw [merge_all_parts]
      rw [h]
  · rw [run_merge_mode]

/-- Witness for merge_empty_soft_failure at one unloadable part file. -/
theorem merge_empty_soft_failure_witness :
    (merge_all_parts true (fun r => r.url) [none] = MergeOutcome.noFiles ∨
      merge_all_parts true (fun r => r.url) [none] =
        MergeOutcome.noLoadable) ∧
    run_merge_mode true (fun r => r.url) [none] =
      ProcessResult.normalExit 0 ∧
    merge_all_parts true (fun r => r.url) [some []] =
      MergeOutcome.merged [] 0 :=
  merge_empty_soft_failure (fun r => r.url) [none] rfl

theorem dedupByKey_eq_spec (key : NewsRec → String) :
    ∀ (l : List NewsRec) (seen : List String),
    dedupByKey key seen l =
      specDedup key (l.filter (fun x => decide (key x ∉ seen))) := by
  intro l
  induction l with
  | nil => intro seen; simp [dedupByKey, specDedup]
  | cons r rest ih =>
    intro seen
    rw [dedupByKey]
    by_cases hs : key r ∈ seen
    · rw [if_pos hs]
      rw [List.filter_cons_of_neg (by simpa using hs)]
      exact ih seen
    · rw [if_neg hs]
      rw [List.filter_cons_of_pos (by simpa using hs)]
      rw [specDedup]
      rw [ih (key r :: seen)]
      congr 1
      rw [List.filter_filter]
      congr 1
      apply List.filter_congr
      intro x _
      simp [List.mem_cons, not_or, Bool.and_comm]

theorem dedupByKey_nil_eq_spec (key : NewsRec → String) (l : List NewsRec) :
    dedupByKey key [] l = specDedup key l := by
  rw [dedupByKey_eq_spec key l []]
  congr 1
  simpa using List.filter_true l

/-- Merging a nonempty list of loaded part files yields the concatenation
    deduplicated by first key occurrence together with the removed count. -/
theorem merge_map_some (key : NewsRec → String) (f : List NewsRec)
    (rest : List (List NewsRec)) :
    merge_all_parts true key ((f :: rest).map some) =
      MergeOutcome.merged (specDedup key (f :: rest).flatten)
        ((f :: rest).flatten.length -
          (specDedup key (f :: rest).flatten).length) := by
  have hfm : ((f :: rest).map some).filterMap id = f :: rest := by
    rw [List.filterMap_map]
    simpa using List.filterMap_some (f :: rest)
  rw [List.map_cons] at hfm ⊢
  rw [merge_all_parts.eq_def]
  dsimp only
  rw [hfm]
  dsimp only
  rw [if_pos rfl]
  rw [dedupByKey_nil_eq_spec]

/-- Claim C8: for part files that all load successfully, merge concatenates
    their records in order, deduplicates on the key keeping the first
    occurrence of each key value (specDedup, written from the spec), and
    reports as removed exactly the difference between the lengths before
    and after deduplication; concretely two part files with an overlapping
    url keep only the first row and report one removed. -/
theorem merge_concat_dedup_first (key : NewsRec → String)
    (files : List (List NewsRec)) (hne : files ≠ []) :
    merge_all_parts true key (files.map some) =
      MergeOutcome.merged (specDedup key files.flatten)
        (files.flatten.length - (specDedup key files.flatten).length) ∧
    merge_all_parts true (fun r => r.url)
      [some [⟨"t1", "u1", "s1", "d1", "dt", "q1", "k"⟩,
             ⟨"t2", "u2", "s2", "d2", "dt", "q1", "k"⟩],
       some [⟨"t3", "u1", "s3", "d3", "dt", "q2", "k"⟩]] =
      MergeOutcome.merged
        [⟨"t1", "u1", "s1", "d1", "dt", "q1", "k"⟩,
         ⟨"t2", "u2", "s2", "d2", "dt", "q1", "k"⟩] 1 := by
  refine ⟨?_, by decide⟩
  match files, hne with
  | f :: rest, _ => exact merge_map_some key f rest

/-- Sample part file rows used in concrete merge checks. -/
def rowA : NewsRec := ⟨"t1", "u1", "s1", "d1", "dt", "q1", "k"⟩

/-- Second sample row, sharing no key with rowA. -/
def rowB : NewsRec := ⟨"t2", "u2", "s2", "d2", "dt", "q1", "k"⟩

/-- Third sample row, sharing the url key value of rowA. -/
def rowC : NewsRec := ⟨"t3", "u1", "s3", "d3", "dt", "q2", "k"⟩

/-- Witness for merge_concat_dedup_first at two concrete part files. -/
theorem merge_concat_dedup_first_witness :
    merge_all_parts true (fun r => r.url) ([[rowA], [rowC]].map some) =
      MergeOutcome.merged
        (specDedup (fun r => r.url) ([[rowA], [rowC]] :
            List (List NewsRec)).flatten)
        (([[rowA], [rowC]] : List (List NewsRec)).flatten.length -
          (specDedup (fun r => r.url) ([[rowA], [rowC]] :
              List (List NewsRec)).flatten).length) :=
  (merge_concat_dedup_first (fun r => r.url) [[rowA], [rowC]]
    (by decide)).1

theorem specDedup_mem_bounded (key : NewsRec → String) :
    ∀ (n : Nat) (l : List NewsRec), l.length ≤ n →
    ∀ r ∈ specDedup key l, r ∈ l := by
  intro n
  induction n with
  | zero =>
    intro l hl r hr
    match l, hl with
    | [], _ => simpa [specDedup] using hr
  | succ n ih =>
    intro l hl r hr
    match l with
    | [] => simpa [specDedup] using hr
    | a :: rest =>
      rw [specDedup] at hr
      rcases List.mem_cons.mp hr with hr0 | hr2
      · exact hr0 ▸ List.mem_cons_self a rest
      · have hlen : (rest.filter
            (fun x => decide (key x ≠ key a))).length ≤ n := by
          have := List.length_filter_le
            (fun x => decide (key x ≠ key a)) rest
          simp only [List.length_cons] at hl
          omega
        have hmem := ih _ hlen r hr2
        exact List.mem_cons_of_mem _ (List.mem_of_mem_filter hmem)

/-- Every record kept by specDedup comes from the input list. -/
theorem specDedup_mem (key : NewsRec → String) (l : List NewsRec) :
    ∀ r ∈ specDedup key l, r ∈ l :=
  specDedup_mem_bounded key l.length l le_rfl

theorem specDedup_mem_iff_bounded (key : NewsRec → String) :
    ∀ (n : Nat) (l : List NewsRec), l.length ≤ n →
    (∀ a ∈ l, ∀ b ∈ l, key a = key b → a = b) →
    ∀ r, r ∈ specDedup key l ↔ r ∈ l := by
  intro n
  induction n with
  | zero =>
    intro l hl _ r
    match l, hl with
    | [], _ => simp [specDedup]
  | succ n ih =>
    intro l hl huniq r
    match l with
    | [] => simp [specDedup]
    | a :: rest =>
      constructor
      · exact fun h => specDedup_mem key (a :: rest) r h
      · intro h
        rw [specDedup]
        rcases List.mem_cons.mp h with hr0 | hr
        · exact hr0 ▸ List.mem_cons_self a _
        · by_cases hk : key r = key a
          · have : r = a := huniq r (List.mem_cons_of_mem a hr) a
              (List.mem_cons_self a rest) hk
            exact this ▸ List.mem_cons_self a _
          · have hrf : r ∈ rest.filter
                (fun x => decide (key x ≠ key a)) :=
              List.mem_filter.mpr ⟨hr, by simpa using hk⟩
            have hlen : (rest.filter
                (fun x => decide (key x ≠ key a))).length ≤ n := by
              have := List.length_filter_le
                (fun x => decide (key x ≠ key a)) rest
              simp only [List.length_cons] at hl
              omega
            have huniq2 : ∀ a2 ∈ rest.filter
                (fun x => decide (key x ≠ key a)),
                ∀ b2 ∈ rest.filter (fun x => decide (key x ≠ key a)),
                key a2 = key b2 → a2 = b2 := by
              intro a2 ha2 b2 hb2 hkk
              exact huniq a2
                (List.mem_cons_of_mem a (List.mem_of_mem_filter ha2)) b2
                (List.mem_cons_of_mem a (List.mem_of_mem_filter hb2)) hkk
            exact List.mem_cons_of_mem a
              ((ih _ hlen huniq2 r).mpr hrf)

/-- Under globally key-unique records, specDedup keeps exactly the members
    of its input. -/
theorem specDedup_mem_iff (key : NewsRec → String) (l : List NewsRec)
    (huniq : ∀ a ∈ l, ∀ b ∈ l, key a = key b → a = b) :
    ∀ r, r ∈ specDedup key l ↔ r ∈ l :=
  specDedup_mem_iff_bounded key l.length l le_rfl huniq

/-- Claim C9: when the dedup key is globally unique valued per logical
    record, merging part files A and B and then merging the result with C
    yields the same deduplicated record set as merging A, B and C in one
    pass. -/
theorem merge_dedup_associative (key : NewsRec → String)
    (A B C : List NewsRec)
    (huniq : ∀ a ∈ A ++ B ++ C, ∀ b ∈ A ++ B ++ C, key a = key b → a = b) :
    ∃ d1 n1 d2 n2 d3 n3,
      merge_all_parts true key [some A, some B] =
        MergeOutcome.merged d1 n1 ∧
      merge_all_parts true key [some d1, some C] =
        MergeOutcome.merged d2 n2 ∧
      merge_all_parts true key [some A, some B, some C] =
        MergeOutcome.merged d3 n3 ∧
      (∀ r, r ∈ d2 ↔ r ∈ d3) := by
  rw [List.append_assoc] at huniq
  have hAB : ([A, B] : List (List NewsRec)).flatten = A ++ B := by simp
  have h1 := merge_map_some key A [B]
  rw [List.map_cons, List.map_cons, List.map_nil, hAB] at h1
  have hD2 : ([specDedup key (A ++ B), C] :
      List (List NewsRec)).flatten = specDedup key (A ++ B) ++ C := by simp
  have h2 := merge_map_some key (specDedup key (A ++ B)) [C]
  rw [List.map_cons, List.map_cons, List.map_nil, hD2] at h2
  have hABC : ([A, B, C] : List (List NewsRec)).flatten =
      A ++ (B ++ C) := by simp
  have h3 := merge_map_some key A [B, C]
  rw [List.map_cons, List.map_cons, List.map_cons, List.map_nil, hABC] at h3
  refine ⟨_, _, _, _, _, _, h1, h2, h3, ?_⟩
  intro r
  have huAB : ∀ a ∈ A ++ B, ∀ b ∈ A ++ B, key a = key b → a = b := by
    intro a ha b hb
    refine huniq a ?_ b ?_ <;> simp only [List.mem_append] at * <;> tauto
  have eAB := specDedup_mem_iff key (A ++ B) huAB
  have hsub2 : ∀ a ∈ specDedup key (A ++ B) ++ C, a ∈ A ++ (B ++ C) := by
    intro a ha
    rcases List.mem_append.mp ha with h | h
    · have := specDedup_mem key (A ++ B) a h
      simp only [List.mem_append] at this ⊢
      tauto
    · simp only [List.mem_append]
      tauto
  have hu2 : ∀ a ∈ specDedup key (A ++ B) ++ C,
      ∀ b ∈ specDedup key (A ++ B) ++ C, key a = key b → a = b :=
    fun a ha b hb => huniq a (hsub2 a ha) b (hsub2 b hb)
  have e2 := specDedup_mem_iff key (specDedup key (A ++ B) ++ C) hu2 r
  have e3 := specDedup_mem_iff key (A ++ (B ++ C)) huniq r
  rw [e2, e3]
  simp only [List.mem_append, eAB r]
  tauto

/-- Witness for merge_dedup_associative at three concrete part files with
    one shared logical record. -/
theorem merge_dedup_associative_witness :
    ∃ d1 n1 d2 n2 d3 n3,
      merge_all_parts true (fun r => r.url) [some [rowA], some [rowB]] =
        MergeOutcome.merged d1 n1 ∧
      merge_all_parts true (fun r => r.url) [some d1, some [rowA]] =
        MergeOutcome.merged d2 n2 ∧
      merge_all_parts true (fun r => r.url)
        [some [rowA], some [rowB], some [rowA]] =
        MergeOutcome.merged d3 n3 ∧
      (∀ r, r ∈ d2 ↔ r ∈ d3) :=
  merge_dedup_associative (fun r => r.url) [rowA] [rowB] [rowA]
    (by decide)

theorem ceilDiv_bounds (T d : Nat) (hd : 0 < d) :
    T ≤ ceilDiv T d * d ∧ ceilDiv T d * d < T + d := by
  have h1 := Nat.div_add_mod (T + d - 1) d
  have h2 := Nat.mod_lt (T + d - 1) hd
  rw [ceilDiv, Nat.mul_comm]
  omega

theorem succ_pred_mul (k d : Nat) (hk : 1 ≤ k) :
    k * d = (k - 1) * d + d := by
  have h : k - 1 + 1 = k := by omega
  calc k * d = (k - 1 + 1) * d := by rw [h]
    _ = (k - 1) * d + d := Nat.succ_mul _ _

theorem fetchPagesLoop_spec (api : Nat → SearchResult) (total d m : Nat)
    (hAPI : ∀ s, 1 ≤ s → ((api s).items).length = min d (total + 1 - s))
    (hd : 0 < d) (hdm : d ≤ m) :
    ∀ (n k : Nat) (items : List Nat) (reqs : Nat),
      2 ≤ k → k + n + 1 = ceilDiv (min total m) d + 1 →
      k ≤ ceilDiv (min total m) d →
      items.length = (k - 1) * d →
      ∃ final : List Nat,
        fetchPagesLoop api d m (List.range' k (n + 1)) items reqs =
          (reqs + (n + 1), final) ∧ final.length = min total m := by
  intro n
  induction n with
  | zero =>
    intro k items reqs hk2 hkn hkP hlen
    -- the last page: k is the final page number
    have hkeq : k = ceilDiv (min total m) d := by omega
    obtain ⟨hc1, hc2⟩ := ceilDiv_bounds (min total m) d hd
    rw [← hkeq] at hc1 hc2
    have hmul := succ_pred_mul k d (by omega)
    have hTtot : min total m ≤ total := Nat.min_le_left total m
    have hTm : min total m ≤ m := Nat.min_le_right total m
    have hAT : (k - 1) * d < min total m := by omega
    have hb := hAPI ((k - 1) * d + 1) (by omega)
    have hb2 : ((api ((k - 1) * d + 1)).items).length =
        min d (total - (k - 1) * d) := by
      rw [hb]
      congr 1
      omega
    have hbne : (api ((k - 1) * d + 1)).items ≠ [] := by
      intro he
      rw [he] at hb2
      simp at hb2
      omega
    rw [List.range'_succ]
    rw [fetchPagesLoop]
    rw [if_neg hbne]
    have hlen2 : (items ++ (api ((k - 1) * d + 1)).items).length =
        (k - 1) * d + min d (total - (k - 1) * d) := by
      rw [List.length_append, hlen, hb2]
    by_cases hbreak : m ≤ (items ++ (api ((k - 1) * d + 1)).items).length
    · rw [if_pos hbreak]
      refine ⟨_, rfl, ?_⟩
      rw [List.length_take, hlen2]
      rw [hlen2] at hbreak
      omega
    · rw [if_neg hbreak]
      have hr0 : List.range' (k + 1) 0 = [] := rfl
      rw [hr0, fetchPagesLoop]
      refine ⟨_, rfl, ?_⟩
      rw [hlen2]
      rw [hlen2] at hbreak
      omega
  | succ n ih =>
    intro k items reqs hk2 hkn hkP hlen
    have hkP2 : k < ceilDiv (min total m) d := by omega
    obtain ⟨hc1, hc2⟩ := ceilDiv_bounds (min total m) d hd
    have hmul := succ_pred_mul k d (by omega)
    have hmulP := succ_pred_mul (ceilDiv (min total m) d) d (by omega)
    have hmono : k * d ≤ (ceilDiv (min total m) d - 1) * d :=
      Nat.mul_le_mul_right d (by omega)
    have hTtot : min total m ≤ total := Nat.min_le_left total m
    have hTm : min total m ≤ m := Nat.min_le_right total m
    have hkdT : k * d < min total m := by omega
    have hb := hAPI ((k - 1) * d + 1) (by omega)
    have hb2 : ((api ((k - 1) * d + 1)).items).length =
        min d (total - (k - 1) * d) := by
      rw [hb]
      congr 1
      omega
    have hbfull : ((api ((k - 1) * d + 1)).items).length = d := by
      rw [hb2]
      omega
    have hbne : (api ((k - 1) * d + 1)).items ≠ [] := by
      intro he
      rw [he] at hbfull
      simp at hbfull
      omega
    rw [List.range'_succ]
    rw [fetchPagesLoop]
    rw [if_neg hbne]
    have hlen2 : (items ++ (api ((k - 1) * d + 1)).items).length = k * d := by
      rw [List.length_append, hlen, hbfull]
      omega
    have hnobreak : ¬ m ≤
        (items ++ (api ((k - 1) * d + 1)).items).length := by
      rw [hlen2]
      omega
    rw [if_neg hnobreak]
    obtain ⟨final, hfe, hfl⟩ := ih (k + 1)
      (items ++ (api ((k - 1) * d + 1)).items) (reqs + 1)
      (by omega) (by omega) (by omega)
      (by rw [hlen2]; congr 1)
    refine ⟨final, ?_, hfl⟩
    rw [hfe]
    congr 1
    omega

/-- A well behaved paginated feed with a fixed total: the page at offset s
    holds the next min(display, remaining) items. -/
def pagedApi (total display : Nat) : Nat → SearchResult :=
  fun s => ⟨total, List.range' s (min display (total + 1 - s))⟩

theorem fetch_spec_general (api : Nat → SearchResult) (total d m : Nat)
    (hAPI : ∀ s, 1 ≤ s → ((api s).items).length = min d (total + 1 - s))
    (htot : (api 1).total = total) (hd : 0 < d) (hdm : d ≤ m)
    (hT : 0 < min total m) :
    ∃ items : List Nat, fetch_news_in_quarter api d m =
      (ceilDiv (min total m) d, items) ∧ items.length = min total m := by
  obtain ⟨hc1, hc2⟩ := ceilDiv_bounds (min total m) d hd
  have hP1 : 1 ≤ ceilDiv (min total m) d := by
    rcases Nat.eq_zero_or_pos (ceilDiv (min total m) d) with h0 | h1
    · exfalso
      rw [h0, Nat.zero_mul] at hc1
      omega
    · exact h1
  have hfirst : ((api 1).items).length = min d total := by
    have := hAPI 1 le_rfl
    rw [this]
    congr 1
  rw [fetch_news_in_quarter]
  dsimp only
  rw [htot]
  rw [if_neg (by omega)]
  by_cases hP : ceilDiv (min total m) d = 1
  · rw [hP]
    have hr0 : List.range' 2 (1 - 1) = [] := rfl
    rw [hr0, fetchPagesLoop]
    refine ⟨(api 1).items, rfl, ?_⟩
    rw [hP, one_mul] at hc1 hc2
    rw [hfirst]
    omega
  · have hP2 : 2 ≤ ceilDiv (min total m) d := by omega
    have hmulP := succ_pred_mul (ceilDiv (min total m) d) d (by omega)
    have hdT : d < min total m := by
      have : d ≤ (ceilDiv (min total m) d - 1) * d :=
        le_of_eq_of_le (Nat.one_mul d).symm
          (Nat.mul_le_mul_right d (by omega))
      omega
    have hrn : ceilDiv (min total m) d - 1 =
        (ceilDiv (min total m) d - 2) + 1 := by omega
    rw [hrn]
    obtain ⟨final, hfe, hfl⟩ := fetchPagesLoop_spec api total d m hAPI hd hdm
      (ceilDiv (min total m) d - 2) 2 (api 1).items 1 le_rfl (by omega)
      (by omega)
      (by rw [hfirst, Nat.one_mul]
          have : min total m ≤ total := Nat.min_le_left total m
          omega)
    refine ⟨final, ?_, hfl⟩
    rw [hfe]
    congr 1
    omega

/-- Claim C3: against a well behaved feed reporting a fixed total, the
    paginated fetch issues exactly the ceiling of min(total, max_items)
    divided by the page size requests, and the accumulated raw item list
    holds exactly min(total, max_items) items, hence at most max_items.
    Concretely: total 250 with page size 100 and cap 1000 takes exactly 3
    requests; total 5000 takes exactly 10 requests and the items are
    truncated to exactly 1000. -/
theorem fetch_pages_count_and_cap :
    (∀ (api : Nat → SearchResult) (total d m : Nat),
      (∀ s, 1 ≤ s → ((api s).items).length = min d (total + 1 - s)) →
      (api 1).total = total → 0 < d → d ≤ m → 0 < min total m →
      ∃ items : List Nat, fetch_news_in_quarter api d m =
        (ceilDiv (min total m) d, items) ∧
        items.length = min total m) ∧
    (fetch_news_in_quarter (pagedApi 250 100) 100 1000).1 = 3 ∧
    (fetch_news_in_quarter (pagedApi 5000 100) 100 1000).1 = 10 ∧
    (fetch_news_in_quarter (pagedApi 5000 100) 100 1000).2.length =
      1000 := by
  have hgen : ∀ (api : Nat → SearchResult) (total d m : Nat),
      (∀ s, 1 ≤ s → ((api s).items).length = min d (total + 1 - s)) →
      (api 1).total = total → 0 < d → d ≤ m → 0 < min total m →
      ∃ items : List Nat, fetch_news_in_quarter api d m =
        (ceilDiv (min total m) d, items) ∧
        items.length = min total m :=
    fun api total d m h1 h2 h3 h4 h5 =>
      fetch_spec_general api total d m h1 h2 h3 h4 h5
  have hp : ∀ total display : Nat, ∀ s, 1 ≤ s →
      (((pagedApi total display) s).items).length =
        min display (total + 1 - s) := by
    intro total display s _
    simp [pagedApi]
  obtain ⟨i2, he2, _⟩ := hgen (pagedApi 250 100) 250 100 1000
    (hp 250 100) rfl (by omega) (by omega) (by decide)
  obtain ⟨i3, he3, hl3⟩ := hgen (pagedApi 5000 100) 5000 100 1000
    (hp 5000 100) rfl (by omega) (by omega) (by decide)
  refine ⟨hgen, ?_, ?_, ?_⟩
  · rw [he2]
    rfl
  · rw [he3]
    rfl
  · rw [he3]
    show i3.length = 1000
    rw [hl3]
    rfl

/-- Witness for fetch_pages_count_and_cap: the general count and cap fact
    applied at the total 250, page size 100, cap 1000 feed. -/
theorem fetch_pages_count_and_cap_witness :
    ∃ items : List Nat,
      fetch_news_in_quarter (pagedApi 250 100) 100 1000 =
        (ceilDiv (min 250 1000) 100, items) ∧
      items.length = min 250 1000 :=
  fetch_pages_count_and_cap.1 (pagedApi 250 100) 250 100 1000
    (fun s _ => by simp [pagedApi]) rfl (by omega) (by omega) (by decide)
